import Mathlib

/-!
# Verification of the faapi structured-extraction engine

A shallow embedding of the faapi repository (a Go client that extracts
structured data from rendered markup pages) together with proofs about the
embedded definitions.

Modelling conventions:
* Go strings are modelled as `List Char` (`GoStr`).
* The external markup parser's `html.Node` (kind, tag name, attribute list,
  first-child / next-sibling navigation) is modelled by `Node`, with the
  first-child/next-sibling chain represented as an ordered `children` list.
* Stateful handlers (`matches`/`process` pairs with accumulator fields) are
  modelled as pure functions over an explicit state type `σ`:
  `process` maps a node and a state to a new state plus the
  "recurse into children" flag, exactly as the Go methods do.
* Network access (`Client.getRaw`) is modelled as an oracle parameter
  `fetch : GoStr → Option Bytes` (`none` = transport error), since the
  transport itself is an external collaborator of the extraction logic.
-/

namespace Faapi

abbrev GoStr := List Char

abbrev Bytes := List Nat

/-- `html.NodeType` from the external markup library. -/
inductive NType where
  | errorNode
  | textNode
  | documentNode
  | elementNode
  | commentNode
  | doctypeNode
deriving DecidableEq, Repr

/-- `html.Attribute` (namespace field omitted; the code only reads Key/Val). -/
structure NAttr where
  key : GoStr
  val : GoStr
deriving DecidableEq, Repr

/-- `html.Node`: node kind, `Data` (tag name for elements, payload for text
nodes), attribute list, and the children (first-child / next-sibling chain). -/
inductive Node where
  | mk (ntype : NType) (data : GoStr) (attr : List NAttr) (children : List Node)

def Node.ntype : Node → NType
  | .mk t _ _ _ => t

def Node.data : Node → GoStr
  | .mk _ d _ _ => d

def Node.attr : Node → List NAttr
  | .mk _ _ a _ => a

def Node.children : Node → List Node
  | .mk _ _ _ cs => cs

/-- `findAttribute` from processor.go: first attribute with the given key,
empty string when absent. -/
def findAttribute (attrs : List NAttr) (name : GoStr) : GoStr :=
  match attrs with
  | [] => []
  | a :: rest => if a.key = name then a.val else findAttribute rest name

/-- `strings.HasPrefix`. -/
def goStartsWith : GoStr → GoStr → Bool
  | _, [] => true
  | [], _ :: _ => false
  | c :: s, p :: ps => c = p && goStartsWith s ps

/-- `strings.Contains` (substring containment). -/
def goContains : GoStr → GoStr → Bool
  | s, pat =>
    if goStartsWith s pat then true
    else
      match s with
      | [] => false
      | _ :: rest => goContains rest pat

/-- `checkNodeTagNameAndID` from processor.go. -/
def checkNodeTagNameAndID (n : Node) (name id : GoStr) : Bool :=
  n.ntype = NType.elementNode && n.data = name && findAttribute n.attr "id".data = id

/-- `checkNodeTagNameAndClass` from processor.go. -/
def checkNodeTagNameAndClass (n : Node) (name cls : GoStr) : Bool :=
  let c := findAttribute n.attr "class".data
  let hasClass := goContains c cls
  n.ntype = NType.elementNode && n.data = name && hasClass

/-- The `tagHandler` interface from processor.go, made explicit over a handler
state type `σ`: `matches` inspects a node, `process` updates the handler state
and reports whether traversal should recurse into the node's children. -/
structure Handler (σ : Type) where
  matchesFn : Node → Bool
  processFn : Node → σ → σ × Bool

/-- The handler-dispatch loop inside `subtreeProcessor.processNode`: try the
handlers in order; the first whose `matches` returns true is run via `process`
(then the loop breaks); if none matches the traversal recurses by default. -/
def runHandlers {σ : Type} : List (Handler σ) → Node → σ → σ × Bool
  | [], _, s => (s, true)
  | h :: hs, n, s => if h.matchesFn n then h.processFn n s else runHandlers hs n s

mutual

/-- `subtreeProcessor.processNode` from processor.go: dispatch the handlers at
the node, then (unless the fired handler returned false) recurse into each
child in order. -/
def processNode {σ : Type} (hs : List (Handler σ)) : Node → σ → σ
  | Node.mk t d a cs, s =>
    match runHandlers hs (Node.mk t d a cs) s with
    | (s', true) => processChildren hs cs s'
    | (s', false) => s'

/-- The child loop of `subtreeProcessor.processNode`: siblings are processed
one after another, each carrying the state left by the previous one. -/
def processChildren {σ : Type} (hs : List (Handler σ)) : List Node → σ → σ
  | [], s => s
  | c :: cs, s => processChildren hs cs (processNode hs c s)

end

mutual

/-- Modelled from the spec's description of the traversal contract (for the C1
refinement comparison only): a pre-order traversal in which, at each node, the
*first* handler whose `matches` returns true — and only that one — is invoked;
if it returns false the walk does not descend into that node's children,
otherwise (and also when no handler matches) it descends normally. -/
def specTraversal {σ : Type} (hs : List (Handler σ)) : Node → σ → σ
  | Node.mk t d a cs, s =>
    match hs.find? (fun h => h.matchesFn (Node.mk t d a cs)) with
    | none => specTraversalChildren hs cs s
    | some h =>
      match h.processFn (Node.mk t d a cs) s with
      | (s', true) => specTraversalChildren hs cs s'
      | (s', false) => s'

/-- Sibling iteration of the spec-side traversal: children are traversed
independently of one another, in order. -/
def specTraversalChildren {σ : Type} (hs : List (Handler σ)) : List Node → σ → σ
  | [], s => s
  | c :: cs, s => specTraversalChildren hs cs (specTraversal hs c s)

end

/-- The handler loop agrees with "first matching handler" dispatch. -/
theorem runHandlers_eq_find {σ : Type} (hs : List (Handler σ)) (n : Node) (s : σ) :
    runHandlers hs n s =
      match hs.find? (fun h => h.matchesFn n) with
      | none => (s, true)
      | some h => h.processFn n s := by
  induction hs with
  | nil => rfl
  | cons h hs ih =>
    by_cases hm : h.matchesFn n
    · simp [runHandlers, hm, List.find?]
    · simp only [runHandlers, hm, if_neg, Bool.false_eq_true, not_false_eq_true, ite_false, ih]
      simp [List.find?, hm]

mutual

theorem processNode_eq_specTraversal {σ : Type} (hs : List (Handler σ)) :
    ∀ (n : Node) (s : σ), processNode hs n s = specTraversal hs n s
  | Node.mk t d a cs, s => by
    rw [processNode, specTraversal, runHandlers_eq_find]
    cases hfind : (hs.find? fun h => h.matchesFn (Node.mk t d a cs)) with
    | none => exact processChildren_eq_specTraversalChildren hs cs s
    | some h =>
      cases hp : h.processFn (Node.mk t d a cs) s with
      | mk s' b =>
        simp only [hp]
        cases b with
        | true => exact processChildren_eq_specTraversalChildren hs cs s'
        | false => rfl

theorem processChildren_eq_specTraversalChildren {σ : Type} (hs : List (Handler σ)) :
    ∀ (cs : List Node) (s : σ), processChildren hs cs s = specTraversalChildren hs cs s
  | [], _ => rfl
  | c :: cs, s => by
    rw [processChildren, specTraversalChildren, processNode_eq_specTraversal hs c s]
    exact processChildren_eq_specTraversalChildren hs cs _

end

/-- **C1.** `subtreeProcessor.processNode` performs a pre-order traversal in
which at most one handler fires per node — the first whose `matches` returns
true; if that handler's `process` returns false the walk does not descend into
the node's children (but still visits its siblings, the sibling step being
independent of the child recursion); if `process` returns true or no handler
matches, the walk descends normally.  Stated as: the embedded Go code equals
the spec-side traversal `specTraversal` (which fires exactly the first match
and descends as described), and sibling iteration threads the state through
each child independently. -/
theorem processNode_correct :
    (∀ (σ : Type) (hs : List (Handler σ)) (n : Node) (s : σ),
        processNode hs n s = specTraversal hs n s) ∧
    (∀ (σ : Type) (hs : List (Handler σ)) (c : Node) (cs : List Node) (s : σ),
        processChildren hs (c :: cs) s = processChildren hs cs (processNode hs c s)) :=
  ⟨fun _ hs n s => processNode_eq_specTraversal hs n s,
   fun _ _ _ _ _ => rfl⟩

/-! ## Go string primitives used by the identifier parser -/

/-- `strings.Replace(s, pat, rep, 1)`: replace the first occurrence of `pat`
(anywhere in `s`, not only as a leading part) by `rep`.  Go inserts `rep`
before `s` when `pat` is empty. -/
def replaceFirst (s pat rep : GoStr) : GoStr :=
  if pat = [] then rep ++ s
  else
    match s with
    | [] => []
    | c :: rest =>
      if goStartsWith (c :: rest) pat then rep ++ (c :: rest).drop pat.length
      else c :: replaceFirst rest pat rep

/-- Error kinds of `strconv` (`ErrSyntax` / `ErrRange`). -/
inductive NumErr where
  | errSyntax
  | errRange
deriving DecidableEq, Repr

def maxUint64 : Nat := 2 ^ 64 - 1

/-- The overflow cutoff of `strconv.ParseUint` for base 10, bit size 64:
`maxVal/base + 1`. -/
def cutoffU : Nat := maxUint64 / 10 + 1

/-- The digit test of the `strconv.ParseUint` loop (Go: `'0' <= c && c <= '9'`). -/
def isDigitCh (c : Char) : Bool := '0' ≤ c && c ≤ '9'

/-- The digit loop of `strconv.ParseUint` (base 10, bitSize 64): scan the
characters; a non-digit is a syntax error (value 0); exceeding the cutoff or
the maximal value is a range error reporting `maxUint64` (and stopping the
scan early); otherwise the accumulated value is returned. -/
def parseUintLoop : GoStr → Nat → Nat × Option NumErr
  | [], n => (n, none)
  | c :: rest, n =>
    if isDigitCh c then
      if n ≥ cutoffU then (maxUint64, some NumErr.errRange)
      else if n * 10 + (c.toNat - '0'.toNat) > maxUint64 then
        (maxUint64, some NumErr.errRange)
      else parseUintLoop rest (n * 10 + (c.toNat - '0'.toNat))
    else (0, some NumErr.errSyntax)

/-- `strconv.ParseUint(s, 10, 64)` (value and error as the Go pair). -/
def parseUint64 (s : GoStr) : Nat × Option NumErr :=
  if s = [] then (0, some NumErr.errSyntax) else parseUintLoop s 0

/-- The sign-independent tail of `strconv.ParseInt(s, 10, 64)`: convert the
digit part unsigned, turn a syntax error into value 0, and clamp range
overflow to the extreme `int64` values. -/
def parseIntCore (neg : Bool) (digits : GoStr) : Int :=
  if (parseUint64 digits).2 = some NumErr.errSyntax then 0
  else if neg = false ∧ 2 ^ 63 ≤ (parseUint64 digits).1 then ((2 ^ 63 - 1 : Nat) : Int)
  else if neg = true ∧ 2 ^ 63 < (parseUint64 digits).1 then -((2 ^ 63 : Nat) : Int)
  else if neg = true then -((parseUint64 digits).1 : Int)
  else ((parseUint64 digits).1 : Int)

/-- `strconv.ParseInt(s, 10, 64)`, value component: pick off a leading sign
and convert the remainder. -/
def parseInt64 (s : GoStr) : Int :=
  match s with
  | [] => 0
  | c0 :: rest =>
    if c0 = '+' then parseIntCore false rest
    else if c0 = '-' then parseIntCore true rest
    else parseIntCore false (c0 :: rest)

/-- `parseSubmissionID` from submission.go: strip the first occurrence of
`sid-` and parse the remainder as a signed 64-bit decimal integer, with the
parse value (zero on a syntax failure) used unconditionally. -/
def parseSubmissionID (s : GoStr) : Int :=
  parseInt64 (replaceFirst s "sid-".data [])

/-- Decimal value of a digit string, most significant digit first
(the reference value the claims compare the parser against). -/
def digitsVal (s : GoStr) : Nat :=
  s.foldl (fun n c => n * 10 + (c.toNat - '0'.toNat)) 0

/-- The shape `sid-<digits>` named by the claim: the literal `sid-` followed
by a non-empty run of decimal digits and nothing else. -/
def isSidDigits (s : GoStr) : Bool :=
  goStartsWith s "sid-".data && s.drop 4 ≠ [] && (s.drop 4).all isDigitCh

/-! ## Lemmas about the identifier parser -/

theorem isDigitCh_toNat {c : Char} (h : isDigitCh c = true) :
    48 ≤ c.toNat ∧ c.toNat ≤ 57 := by
  have h' := h
  unfold isDigitCh at h'
  rw [Bool.and_eq_true, decide_eq_true_eq, decide_eq_true_eq] at h'
  exact ⟨Char.le_def.mp h'.1, Char.le_def.mp h'.2⟩

def digitStep (n : Nat) (c : Char) : Nat := n * 10 + (c.toNat - '0'.toNat)

theorem digitsVal_eq_foldl (s : GoStr) : digitsVal s = s.foldl digitStep 0 := rfl

theorem foldl_digitStep_ge (l : GoStr) : ∀ n : Nat, n ≤ l.foldl digitStep n := by
  induction l with
  | nil => exact fun n => Nat.le_refl n
  | cons c rest ih =>
    intro n
    calc n ≤ digitStep n c := by unfold digitStep; omega
    _ ≤ (c :: rest).foldl digitStep n := ih (digitStep n c)

theorem parseUintLoop_digits (l : GoStr) :
    ∀ n : Nat, (∀ c ∈ l, isDigitCh c = true) → l.foldl digitStep n < 2 ^ 63 →
      parseUintLoop l n = (l.foldl digitStep n, none) := by
  induction l with
  | nil => intro n _ _; rfl
  | cons c rest ih =>
    intro n hdig hbound
    have hc : isDigitCh c = true := hdig c (List.mem_cons_self c rest)
    have hfold : (c :: rest).foldl digitStep n = rest.foldl digitStep (digitStep n c) := rfl
    have hstep : digitStep n c ≤ rest.foldl digitStep (digitStep n c) :=
      foldl_digitStep_ge rest (digitStep n c)
    have hn1 : digitStep n c < 2 ^ 63 := by
      rw [hfold] at hbound; omega
    have hcut : ¬ n ≥ cutoffU := by
      intro hge
      have h10 : n * 10 < 2 ^ 63 := by unfold digitStep at hn1; omega
      have hc10 : cutoffU * 10 ≥ 2 ^ 63 := by unfold cutoffU maxUint64; norm_num
      have hle : cutoffU * 10 ≤ n * 10 := Nat.mul_le_mul_right 10 hge
      omega
    have hmax : ¬ n * 10 + (c.toNat - '0'.toNat) > maxUint64 := by
      have hm : (2 : Nat) ^ 63 ≤ maxUint64 := by unfold maxUint64; norm_num
      unfold digitStep at hn1; omega
    rw [parseUintLoop, if_pos hc, if_neg hcut, if_neg hmax, hfold]
    exact ih (digitStep n c) (fun x hx => hdig x (List.mem_cons_of_mem c hx))
      (by rw [← hfold]; exact hbound)

theorem parseUintLoop_syntaxSmall (l : GoStr) :
    ∀ n : Nat, l.length ≤ 19 → n < 10 ^ (19 - l.length) →
      (∃ c ∈ l, isDigitCh c = false) →
      parseUintLoop l n = (0, some NumErr.errSyntax) := by
  induction l with
  | nil => intro n _ _ hex; exact absurd hex (by simp)
  | cons c rest ih =>
    intro n hlen hn hex
    cases hc : isDigitCh c with
    | false => rw [parseUintLoop, if_neg (by simp [hc])]
    | true =>
      have hrest : ∃ x ∈ rest, isDigitCh x = false := by
        rcases hex with ⟨x, hx, hxd⟩
        rcases List.mem_cons.mp hx with h | h
        · subst h; rw [hc] at hxd; cases hxd
        · exact ⟨x, h, hxd⟩
      have hlen' : rest.length ≤ 18 := by simpa using hlen
      have hexp : (19 : Nat) - (c :: rest).length = 18 - rest.length := by
        simp only [List.length_cons]
        omega
      rw [hexp] at hn
      have h0 : '0'.toNat = 48 := rfl
      have hd : c.toNat - '0'.toNat ≤ 9 := by
        have hb := isDigitCh_toNat hc
        omega
      have hcut : ¬ n ≥ cutoffU := by
        intro hge
        have h1 : n < 10 ^ 18 :=
          lt_of_lt_of_le hn (Nat.pow_le_pow_right (by norm_num) (by omega))
        have h2 : (10 : Nat) ^ 18 ≤ cutoffU := by unfold cutoffU maxUint64; norm_num
        omega
      have hn1 : n * 10 + (c.toNat - '0'.toNat) < 10 ^ (19 - rest.length) := by
        have h1 : 10 ^ (18 - rest.length) * 10 = 10 ^ (19 - rest.length) := by
          rw [← Nat.pow_succ]
          congr 1
          omega
        have h2 : n + 1 ≤ 10 ^ (18 - rest.length) := hn
        have h3 : (n + 1) * 10 ≤ 10 ^ (18 - rest.length) * 10 :=
          Nat.mul_le_mul_right 10 h2
        omega
      have hmaxpow : (10 : Nat) ^ (19 - rest.length) ≤ 10 ^ 19 :=
        Nat.pow_le_pow_right (by norm_num) (by omega)
      have hmax : ¬ n * 10 + (c.toNat - '0'.toNat) > maxUint64 := by
        have h19 : (10 : Nat) ^ 19 ≤ maxUint64 := by unfold maxUint64; norm_num
        omega
      rw [parseUintLoop, if_pos hc, if_neg hcut, if_neg hmax]
      exact ih (n * 10 + (c.toNat - '0'.toNat)) (by omega) hn1 hrest

theorem goStartsWith_nil (s : GoStr) : goStartsWith s [] = true := by
  cases s <;> rfl

theorem goStartsWith_append (p s : GoStr) : goStartsWith (p ++ s) p = true := by
  induction p with
  | nil => exact goStartsWith_nil s
  | cons c rest ih => simp [goStartsWith, ih]

theorem replaceFirst_of_sid_append (ds : GoStr) :
    replaceFirst ("sid-".data ++ ds) "sid-".data [] = ds := by
  have hne : ("sid-".data : GoStr) ≠ [] := by decide
  cases hds : ("sid-".data ++ ds) with
  | nil => simp at hds
  | cons c rest =>
    rw [replaceFirst, if_neg hne, ← hds, if_pos (goStartsWith_append "sid-".data ds)]
    simp

theorem parseUint64_digits {ds : GoStr} (hne : ds ≠ [])
    (hdig : ∀ c ∈ ds, isDigitCh c = true) (hval : digitsVal ds < 2 ^ 63) :
    parseUint64 ds = (digitsVal ds, none) := by
  rw [parseUint64, if_neg hne, digitsVal_eq_foldl]
  exact parseUintLoop_digits ds 0 hdig (by rw [← digitsVal_eq_foldl]; exact hval)

theorem parseIntCore_syntax (neg : Bool) {digits : GoStr}
    (h : (parseUint64 digits).2 = some NumErr.errSyntax) :
    parseIntCore neg digits = 0 := by
  rw [parseIntCore, if_pos h]

theorem parseInt64_digits {ds : GoStr} (hne : ds ≠ [])
    (hdig : ∀ c ∈ ds, isDigitCh c = true) (hval : digitsVal ds < 2 ^ 63) :
    parseInt64 ds = (digitsVal ds : Int) := by
  cases ds with
  | nil => exact absurd rfl hne
  | cons c rest =>
    have hc : isDigitCh c = true := hdig c (List.mem_cons_self c rest)
    have hplus : ¬ c = '+' := by intro h; subst h; cases hc
    have hminus : ¬ c = '-' := by intro h; subst h; cases hc
    have hu : parseUint64 (c :: rest) = (digitsVal (c :: rest), none) :=
      parseUint64_digits hne hdig hval
    rw [parseInt64, if_neg hplus, if_neg hminus, parseIntCore, hu]
    rw [if_neg (by simp), if_neg (fun hcon => absurd hcon.2 (by simp; omega)),
      if_neg (by simp), if_neg (by simp)]

/-- Inputs whose post-`sid-`-removal remainder is visibly not an integer:
empty, a bare sign, or (when at most 19 characters long, so that the range
check of the scanner cannot fire first) containing some non-digit. -/
def syntaxInvalidSmall (r : GoStr) : Bool :=
  match r with
  | [] => true
  | c :: rest =>
    let ds := if c = '+' || c = '-' then rest else c :: rest
    ds = [] || (decide (ds.length ≤ 19) && ds.any (fun x => !(isDigitCh x)))

theorem parseUint64_syntaxOfInvalid {ds : GoStr}
    (h : ds = [] ∨ (ds.length ≤ 19 ∧ ∃ c ∈ ds, isDigitCh c = false)) :
    (parseUint64 ds).2 = some NumErr.errSyntax := by
  rcases h with h | ⟨hlen, hex⟩
  · subst h; rfl
  · cases hds : ds with
    | nil => rfl
    | cons x xs =>
      subst hds
      rw [parseUint64, if_neg (by simp)]
      rw [parseUintLoop_syntaxSmall (x :: xs) 0 hlen
        (Nat.pos_pow_of_pos _ (by norm_num)) hex]

theorem parseInt64_invalidSmall {r : GoStr} (h : syntaxInvalidSmall r = true) :
    parseInt64 r = 0 := by
  cases r with
  | nil => rfl
  | cons c rest =>
    rw [syntaxInvalidSmall] at h
    by_cases hp : c = '+'
    · rw [parseInt64, if_pos hp]
      refine parseIntCore_syntax false (parseUint64_syntaxOfInvalid ?_)
      simp only [hp, if_pos, Bool.or_eq_true, decide_eq_true_eq, Bool.and_eq_true,
        List.any_eq_true, Bool.not_eq_true', true_or, ite_true] at h
      rcases h with h | ⟨h1, h2⟩
      · exact Or.inl h
      · exact Or.inr ⟨h1, h2⟩
    · by_cases hm : c = '-'
      · rw [parseInt64, if_neg hp, if_pos hm]
        refine parseIntCore_syntax true (parseUint64_syntaxOfInvalid ?_)
        simp only [hp, hm, Bool.or_eq_true, decide_eq_true_eq, Bool.and_eq_true,
          List.any_eq_true, Bool.not_eq_true', or_true, ite_true,
          decide_eq_true_eq] at h
        rcases h with h | ⟨h1, h2⟩
        · exact Or.inl h
        · exact Or.inr ⟨h1, h2⟩
      · rw [parseInt64, if_neg hp, if_neg hm]
        refine parseIntCore_syntax false (parseUint64_syntaxOfInvalid ?_)
        simp only [hp, hm, Bool.or_eq_true, decide_eq_true_eq, Bool.and_eq_true,
          List.any_eq_true, Bool.not_eq_true', or_self, ite_false,
          decide_eq_true_eq] at h
        rcases h with h | ⟨h1, h2⟩
        · exact Or.inl h
        · exact Or.inr ⟨h1, h2⟩

/-- **C4, counterexample.** The claim "for any input string not of the form
`sid-<digits>`, parsing yields the zero sentinel" is false: `"123"` is not of
that form, yet `parseSubmissionID` returns 123 (the code strips the first
occurrence of `sid-` anywhere — here nothing — and hands the remainder to
`strconv.ParseInt`).  Moreover `"sid-18446744073709551616"` *is* of that form
but parses to the clamped `int64` maximum rather than the digit value. -/
theorem parseSubmissionID_claim_false :
    (isSidDigits "123".data = false ∧ parseSubmissionID "123".data ≠ 0) ∧
    (isSidDigits "sid-18446744073709551616".data = true ∧
      parseSubmissionID "sid-18446744073709551616".data ≠
        (digitsVal "18446744073709551616".data : Int)) := by
  constructor
  · exact ⟨by decide, by decide⟩
  · exact ⟨by decide, by decide⟩

/-- **C4, amended.** (1) For a string of the form `sid-<digits>` whose digit
value fits in a signed 64-bit integer, parsing yields the integer value of
`<digits>`.  (2) Parsing yields the zero sentinel whenever the string with its
first `sid-` occurrence removed is visibly not an integer — empty, a bare
sign, or at most 19 characters with a non-digit among them (longer remainders
can hit the 64-bit range check first, which clamps instead of zeroing, and
remainders that are themselves valid integers parse to their own value). -/
theorem parseSubmissionID_spec :
    (∀ ds : GoStr, ds ≠ [] → (∀ c ∈ ds, isDigitCh c = true) →
        digitsVal ds < 2 ^ 63 →
        parseSubmissionID ("sid-".data ++ ds) = (digitsVal ds : Int)) ∧
    (∀ s : GoStr, syntaxInvalidSmall (replaceFirst s "sid-".data []) = true →
        parseSubmissionID s = 0) := by
  constructor
  · intro ds hne hdig hval
    rw [parseSubmissionID, replaceFirst_of_sid_append]
    exact parseInt64_digits hne hdig hval
  · intro s h
    rw [parseSubmissionID]
    exact parseInt64_invalidSmall h

/-- **C4, witness.** The amended theorem applied at concrete inputs:
`sid-42` parses to 42, and `journal` (no digits at all) parses to 0. -/
theorem parseSubmissionID_spec_witness :
    parseSubmissionID ("sid-".data ++ "42".data) = (digitsVal "42".data : Int) ∧
    parseSubmissionID "journal".data = 0 :=
  ⟨parseSubmissionID_spec.1 "42".data (by decide) (by decide) (by decide),
   parseSubmissionID_spec.2 "journal".data (by decide)⟩

/-! ## The shared text normalization
(`journalContentHandler.process` in journal.go and `statsHandler.process` in
submission.go apply the same four steps). -/

/-- The non-breaking space character appearing literally in the Go source. -/
def nbsp : Char := Char.ofNat 160

/-- `strings.ReplaceAll(s, "  ", " ")`: left-to-right, non-overlapping
replacement of two consecutive spaces by one. -/
def collapseDoubleSpace : GoStr → GoStr
  | [] => []
  | [c] => [c]
  | c1 :: c2 :: rest =>
    if c1 = ' ' ∧ c2 = ' ' then ' ' :: collapseDoubleSpace rest
    else c1 :: collapseDoubleSpace (c2 :: rest)

/-- `strings.ReplaceAll(s, old, new)` for single-character patterns. -/
def replaceAllChar (old new : Char) (s : GoStr) : GoStr :=
  s.map (fun c => if c = old then new else c)

/-- The cutset of the final `strings.Trim` call: space, tab, non-breaking
space, carriage return, newline. -/
def isTrimCut (c : Char) : Bool :=
  c = ' ' || c = '\t' || c = nbsp || c = '\r' || c = '\n'

/-- `strings.Trim(s, " \t \r\n")`: drop cutset characters from both
ends. -/
def goTrim (s : GoStr) : GoStr :=
  (s.dropWhile isTrimCut).rdropWhile isTrimCut

/-- The shared normalization: collapse double spaces once, replace
non-breaking spaces by spaces, replace tabs by spaces, then trim. -/
def normalizeText (s : GoStr) : GoStr :=
  goTrim (replaceAllChar '\t' ' ' (replaceAllChar nbsp ' ' (collapseDoubleSpace s)))

/-- Space-like characters: the ones the normalization maps to an ordinary
space (or leaves as one). -/
def spaceLike (c : Char) : Bool := c = ' ' || c = nbsp || c = '\t'

/-! ### Lemmas about the normalization -/

/-- "No two adjacent space-like characters" — the class of strings on which
one normalization pass already reaches a fixed point. -/
def NoAdjSpaceLike (s : GoStr) : Prop :=
  List.Chain' (fun a b => ¬(spaceLike a = true ∧ spaceLike b = true)) s

/-- Executable check for `NoAdjSpaceLike`. -/
def noAdjSpaceLikeB : GoStr → Bool
  | a :: b :: rest => (!(spaceLike a && spaceLike b)) && noAdjSpaceLikeB (b :: rest)
  | _ => true

theorem noAdjSpaceLikeB_iff : ∀ s : GoStr, noAdjSpaceLikeB s = true ↔ NoAdjSpaceLike s
  | [] => by
    unfold NoAdjSpaceLike
    simp [noAdjSpaceLikeB, List.chain'_nil]
  | [c] => by
    unfold NoAdjSpaceLike
    simp [noAdjSpaceLikeB, List.chain'_singleton]
  | a :: b :: rest => by
    unfold NoAdjSpaceLike
    rw [List.chain'_cons, noAdjSpaceLikeB, Bool.and_eq_true, Bool.not_eq_true',
      Bool.and_eq_false_iff]
    constructor
    · rintro ⟨h1, h2⟩
      refine ⟨?_, (noAdjSpaceLikeB_iff (b :: rest)).mp h2⟩
      rintro ⟨ha, hb⟩
      rcases h1 with h | h
      · rw [ha] at h; cases h
      · rw [hb] at h; cases h
    · rintro ⟨h1, h2⟩
      refine ⟨?_, (noAdjSpaceLikeB_iff (b :: rest)).mpr h2⟩
      by_cases hsa : spaceLike a = true
      · by_cases hsb : spaceLike b = true
        · exact absurd ⟨hsa, hsb⟩ h1
        · exact Or.inr (Bool.not_eq_true _ ▸ hsb)
      · exact Or.inl (Bool.not_eq_true _ ▸ hsa)

instance (s : GoStr) : Decidable (NoAdjSpaceLike s) :=
  decidable_of_iff _ (noAdjSpaceLikeB_iff s)

/-- "No two adjacent ordinary spaces". -/
def NoDoubleSpace (s : GoStr) : Prop :=
  List.Chain' (fun a b => ¬(a = ' ' ∧ b = ' ')) s

theorem collapseDoubleSpace_id : ∀ s : GoStr, NoDoubleSpace s → collapseDoubleSpace s = s
  | [], _ => rfl
  | [_], _ => rfl
  | c1 :: c2 :: rest, h => by
    have h12 : ¬(c1 = ' ' ∧ c2 = ' ') := (List.chain'_cons.mp h).1
    rw [collapseDoubleSpace, if_neg h12]
    congr 1
    exact collapseDoubleSpace_id (c2 :: rest) (List.chain'_cons.mp h).2

/-- One pointwise step of the two character replacements. -/
def spaceFix (c : Char) : Char :=
  if (if c = nbsp then ' ' else c) = '\t' then ' ' else (if c = nbsp then ' ' else c)

theorem replaceAll_tab_nbsp (s : GoStr) :
    replaceAllChar '\t' ' ' (replaceAllChar nbsp ' ' s) = s.map spaceFix := by
  unfold replaceAllChar spaceFix
  rw [List.map_map]
  rfl

theorem spaceFix_eq_space_iff (c : Char) : spaceFix c = ' ' ↔ spaceLike c = true := by
  by_cases h1 : c = nbsp
  · subst h1; decide
  · by_cases h2 : c = '\t'
    · subst h2; decide
    · by_cases h3 : c = ' '
      · subst h3; decide
      · unfold spaceFix spaceLike
        simp [h1, h2, h3]

theorem spaceFix_ne_nbsp (c : Char) : spaceFix c ≠ nbsp := by
  by_cases h1 : c = nbsp
  · subst h1; decide
  · by_cases h2 : c = '\t'
    · subst h2; decide
    · unfold spaceFix
      simpa [h1, h2] using h1

theorem spaceFix_ne_tab (c : Char) : spaceFix c ≠ '\t' := by
  by_cases h1 : c = nbsp
  · subst h1; decide
  · by_cases h2 : c = '\t'
    · subst h2; decide
    · unfold spaceFix
      simpa [h1, h2] using h2

theorem noDoubleSpace_map_spaceFix {s : GoStr} (h : NoAdjSpaceLike s) :
    NoDoubleSpace (s.map spaceFix) := by
  unfold NoDoubleSpace
  rw [List.chain'_map]
  refine List.Chain'.imp ?_ h
  intro a b hab ⟨ha, hb⟩
  exact hab ⟨(spaceFix_eq_space_iff a).mp ha, (spaceFix_eq_space_iff b).mp hb⟩

theorem goTrim_mem {s : GoStr} {x : Char} (hx : x ∈ goTrim s) : x ∈ s := by
  unfold goTrim at hx
  have h1 := List.rdropWhile_prefix isTrimCut (s.dropWhile isTrimCut)
  have h2 := List.dropWhile_suffix (l := s) isTrimCut
  exact List.Sublist.subset (List.IsSuffix.sublist h2)
    (List.Sublist.subset (List.IsPrefix.sublist h1) hx)

theorem goTrim_chain {R : Char → Char → Prop} {s : GoStr} (h : List.Chain' R s) :
    List.Chain' R (goTrim s) := by
  unfold goTrim
  have h1 := List.Chain'.suffix h (List.dropWhile_suffix (l := s) isTrimCut)
  exact List.Chain'.prefix h1 ( List.rdropWhile_prefix isTrimCut (s.dropWhile isTrimCut))

theorem dropWhile_head_false {p : Char → Bool} :
    ∀ {s : GoStr} {c : Char} {cs : GoStr}, s.dropWhile p = c :: cs → p c = false := by
  intro s
  induction s with
  | nil => intro c cs h; cases h
  | cons a as ih =>
    intro c cs h
    rw [List.dropWhile_cons] at h
    cases hpa : p a with
    | true => rw [hpa] at h; simp at h; exact ih h
    | false =>
      rw [hpa] at h
      simp at h
      rw [← h.1]
      exact hpa

theorem goTrim_idem (s : GoStr) : goTrim (goTrim s) = goTrim s := by
  unfold goTrim
  have hdrop : (((s.dropWhile isTrimCut).rdropWhile isTrimCut).dropWhile isTrimCut)
      = (s.dropWhile isTrimCut).rdropWhile isTrimCut := by
    cases ht : (s.dropWhile isTrimCut).rdropWhile isTrimCut with
    | nil => rfl
    | cons c cs =>
      have hpfx := List.rdropWhile_prefix isTrimCut (s.dropWhile isTrimCut)
      rw [ht] at hpfx
      rcases hpfx with ⟨r, hr⟩
      have hs : s.dropWhile isTrimCut = c :: (cs ++ r) := by
        rw [← hr]; rfl
      have hc : isTrimCut c = false := dropWhile_head_false hs
      rw [List.dropWhile_cons, hc]
      simp
  rw [hdrop, List.rdropWhile_idempotent]

theorem map_id_of_mem {f : Char → Char} :
    ∀ {l : GoStr}, (∀ x ∈ l, f x = x) → l.map f = l := by
  intro l
  induction l with
  | nil => intro _; rfl
  | cons c cs ih =>
    intro h
    rw [List.map_cons, h c (List.mem_cons_self c cs),
      ih fun x hx => h x (List.mem_cons_of_mem c hx)]

theorem spaceFix_id_of_ne {c : Char} (h1 : c ≠ nbsp) (h2 : c ≠ '\t') :
    spaceFix c = c := by
  unfold spaceFix
  simp [h1, h2]

/-- **C3, counterexample.** The normalization is not idempotent: on
`"a   b"` (three spaces) one pass leaves `"a  b"` — Go's `ReplaceAll`
collapses non-overlapping pairs left to right, so a run of three spaces
shrinks to two — and only the second pass reaches `"a b"`. -/
theorem normalizeText_not_idem :
    normalizeText (normalizeText ['a', ' ', ' ', ' ', 'b'])
      ≠ normalizeText ['a', ' ', ' ', ' ', 'b'] := by decide

/-- **C3, amended.** The normalization is idempotent on every string in which
no two adjacent characters are both space-like (ordinary space, non-breaking
space, or tab); for such inputs a single pass already reaches a fixed point.
(In general a run of three or more space-like characters needs several passes,
as the counterexample shows.) -/
theorem normalizeText_idem_of_noAdj (s : GoStr) (h : NoAdjSpaceLike s) :
    normalizeText (normalizeText s) = normalizeText s := by
  have hnds : NoDoubleSpace s := by
    refine List.Chain'.imp ?_ h
    intro a b hab ⟨ha, hb⟩
    exact hab ⟨by rw [ha]; decide, by rw [hb]; decide⟩
  have hform : normalizeText s = goTrim (s.map spaceFix) := by
    rw [normalizeText, collapseDoubleSpace_id s hnds, replaceAll_tab_nbsp]
  have ht_nds : NoDoubleSpace (goTrim (s.map spaceFix)) :=
    goTrim_chain (noDoubleSpace_map_spaceFix h)
  have ht_fix : ∀ x ∈ goTrim (s.map spaceFix), spaceFix x = x := by
    intro x hx
    have hx' : x ∈ s.map spaceFix := goTrim_mem hx
    rcases List.mem_map.mp hx' with ⟨y, _, hy⟩
    refine spaceFix_id_of_ne ?_ ?_
    · rw [← hy]; exact spaceFix_ne_nbsp y
    · rw [← hy]; exact spaceFix_ne_tab y
  rw [hform, normalizeText, collapseDoubleSpace_id _ ht_nds, replaceAll_tab_nbsp,
    map_id_of_mem ht_fix, goTrim_idem]

/-- **C3, witness.** The amended idempotence applied at `"a b"`. -/
theorem normalizeText_idem_witness :
    NoAdjSpaceLike "a b".data ∧
      normalizeText (normalizeText "a b".data) = normalizeText "a b".data :=
  ⟨by decide, normalizeText_idem_of_noAdj "a b".data (by decide)⟩

/-! ## Pagination (C5): User.GetJournals, User.GetGallery, Search.GetPage -/

/-- `SubmissionType` from user.go. -/
inductive SubmissionType where
  | gallery
  | scraps
deriving DecidableEq, Repr

/-- `SubmissionType.URI`. -/
def SubmissionType.URI : SubmissionType → GoStr
  | .gallery => "gallery".data
  | .scraps => "scraps".data

/-- `fmt.Sprintf` `%d` on an unsigned page number. -/
def natRepr (n : Nat) : GoStr := (Nat.repr n).data

/-- `strconv.Itoa` on a signed page number. -/
def itoa (i : Int) : GoStr := (Int.repr i).data

/-- The request path built by `User.GetJournals`
(`/journals/%s/%d/`, after the `page == 0 → page = 1` normalization). -/
def getJournalsPath (name : GoStr) (page : Nat) : GoStr :=
  let page := if page = 0 then 1 else page
  "/journals/".data ++ name ++ "/".data ++ natRepr page ++ "/".data

/-- The request path built by `User.GetGallery`
(`/%s/%s/%d/`, after the `page == 0 → page = 1` normalization). -/
def getGalleryPath (st : SubmissionType) (name : GoStr) (page : Nat) : GoStr :=
  let page := if page = 0 then 1 else page
  "/".data ++ st.URI ++ "/".data ++ name ++ "/".data ++ natRepr page ++ "/".data

/-- The form parameters built by `Search.GetPage` (the `url.Values` `Set`
calls; all keys are distinct, so an ordered association list is a faithful
model of the map). -/
def searchParams (query : GoStr) (page : Int) : List (GoStr × GoStr) :=
  [("q".data, query),
   ("page".data, itoa page),
   ("perpage".data, "72".data),
   ("order-by".data, "date".data),
   ("order-direction".data, "desc".data),
   ("do_search".data, "Search".data),
   ("range".data, "all".data),
   ("rating-general".data, "on".data),
   ("rating-mature".data, "on".data),
   ("rating-adult".data, "on".data),
   ("type-art".data, "on".data),
   ("type-flash".data, "on".data),
   ("type-photo".data, "on".data),
   ("type-music".data, "on".data),
   ("type-story".data, "on".data),
   ("type-poetry".data, "on".data),
   ("mode".data, "extended".data)]

/-- `url.Values.Get`: first value stored under a key. -/
def lookupParam : List (GoStr × GoStr) → GoStr → GoStr
  | [], _ => []
  | (k, v) :: rest, key => if k = key then v else lookupParam rest key

/-- **C5, counterexample.** `Search.GetPage` does *not* normalize a page
argument of 0 to 1: the form body is built with `page=0` verbatim, unlike the
journal and gallery operations. -/
theorem searchPage_not_normalized :
    lookupParam (searchParams "x".data 0) "page".data = "0".data ∧
      ("0".data : GoStr) ≠ "1".data := by
  constructor
  · rfl
  · decide

/-- **C5, amended.** Page numbering is 1-based everywhere, but only the user
journal and gallery/scraps operations normalize a page argument of 0 to 1
before building the request URL; the search operation places the page
argument in the form body verbatim (`strconv.Itoa(page)`), so page 0 is sent
as `0`. -/
theorem pageNormalization_spec :
    (∀ name : GoStr, getJournalsPath name 0 = getJournalsPath name 1) ∧
    (∀ (st : SubmissionType) (name : GoStr),
        getGalleryPath st name 0 = getGalleryPath st name 1) ∧
    (∀ (q : GoStr) (p : Int), lookupParam (searchParams q p) "page".data = itoa p) :=
  ⟨fun _ => rfl, fun _ _ => rfl, fun _ _ => rfl⟩

/-! ## Journal-link handler (C7) and journal records -/

/-- `Journal` from journal.go (the `*Client` back-reference is dropped; the
`content` field is the lazy body cache). -/
structure Journal where
  ID : Int
  Title : GoStr
  User : GoStr := []
  content : Option GoStr := none
deriving DecidableEq, Repr

/-- The anchored `journalRegexp` `^/journal/(\d+)/$`: on a match, the capture
group (the digit run).  The pattern is deterministic: after the literal head,
a maximal non-empty digit run must be followed by exactly `/`. -/
def journalPathMatch (href : GoStr) : Option GoStr :=
  if goStartsWith href "/journal/".data then
    let rest := href.drop 9
    let ds := rest.takeWhile isDigitCh
    if ds ≠ [] ∧ rest.drop ds.length = "/".data then some ds else none
  else none

/-- `journalHandler.matches` from user.go: an anchor whose `href` matches the
journal pattern and whose first child is a text node that is neither a
`Comments …` counter nor the `Read more...` teaser. -/
def journalHandlerMatches (n : Node) : Bool :=
  if n.ntype = NType.elementNode ∧ n.data = "a".data then
    if (journalPathMatch (findAttribute n.attr "href".data)).isSome then
      match n.children.head? with
      | some linkText =>
        if linkText.ntype = NType.textNode then
          !(goStartsWith linkText.data "Comments ".data)
            && !(linkText.data = "Read more...".data)
        else false
      | none => false
    else false
  else false

/-- `journalHandler.process` from user.go: append one `Journal` whose ID is
the parsed capture group and whose title is the first child's text.  (In Go
both dereferences are unguarded but only reachable after `matches`; the
`getD` defaults model the same partiality.) -/
def journalHandlerProcess (n : Node) (js : List Journal) : List Journal × Bool :=
  let id := (journalPathMatch (findAttribute n.attr "href".data)).getD []
  (js ++ [{ ID := parseSubmissionID id
            Title := ((n.children.head?).map Node.data).getD [] }], false)

theorem mem_takeWhile_digit {l ds : GoStr} (h : l.takeWhile isDigitCh = ds) :
    ∀ c ∈ ds, isDigitCh c = true := by
  intro c hc
  rw [← h] at hc
  exact List.mem_takeWhile_imp hc

theorem journalPathMatch_digits {href ds : GoStr}
    (h : journalPathMatch href = some ds) :
    ds ≠ [] ∧ ∀ c ∈ ds, isDigitCh c = true := by
  unfold journalPathMatch at h
  by_cases hpre : goStartsWith href "/journal/".data = true
  · rw [if_pos hpre] at h
    by_cases hcond : (href.drop 9).takeWhile isDigitCh ≠ [] ∧
        (href.drop 9).drop ((href.drop 9).takeWhile isDigitCh).length = "/".data
    · rw [if_pos hcond] at h
      cases h
      exact ⟨hcond.1, mem_takeWhile_digit rfl⟩
    · rw [if_neg hcond] at h
      cases h
  · rw [if_neg hpre] at h
    cases h

theorem replaceFirst_id_of_digits {l : GoStr} (h : ∀ c ∈ l, isDigitCh c = true) :
    replaceFirst l "sid-".data [] = l := by
  induction l with
  | nil => rfl
  | cons c rest ih =>
    have hc : isDigitCh c = true := h c (List.mem_cons_self c rest)
    have hcs : ¬ c = 's' := by intro hs; subst hs; cases hc
    have hsw : goStartsWith (c :: rest) "sid-".data = false := by
      show (decide (c = 's') && goStartsWith rest "id-".data) = false
      simp [hcs]
    rw [replaceFirst, if_neg (by decide : ¬ ("sid-".data : GoStr) = []), hsw]
    simp only [Bool.false_eq_true, if_neg, ite_false]
    rw [ih fun x hx => h x (List.mem_cons_of_mem c hx)]

theorem parseSubmissionID_of_digits {ds : GoStr} (hne : ds ≠ [])
    (hdig : ∀ c ∈ ds, isDigitCh c = true) (hval : digitsVal ds < 2 ^ 63) :
    parseSubmissionID ds = (digitsVal ds : Int) := by
  rw [parseSubmissionID, replaceFirst_id_of_digits hdig]
  exact parseInt64_digits hne hdig hval

/-- **C7.** For an anchor (`a` element) whose `href` matches the journal path
pattern with capture `ds`, and whose first child is a text node carrying
`txt`: if `txt` begins with `Comments ` or equals `Read more...` the handler
does not match (so it records nothing); otherwise it matches, and `process`
appends exactly one `Journal` whose ID is the parsed capture (equal to the
integer value of the digits whenever that value fits in an `int64`) and whose
title is `txt`. -/
theorem journalHandler_spec (attrs : List NAttr) (lt : Node) (kids : List Node)
    (ds txt : GoStr)
    (hhref : journalPathMatch (findAttribute attrs "href".data) = some ds)
    (hlt : lt.ntype = NType.textNode) (htxt : lt.data = txt) :
    (goStartsWith txt "Comments ".data = true ∨ txt = "Read more...".data →
      journalHandlerMatches (Node.mk NType.elementNode "a".data attrs (lt :: kids))
        = false) ∧
    (goStartsWith txt "Comments ".data = false → txt ≠ "Read more...".data →
      journalHandlerMatches (Node.mk NType.elementNode "a".data attrs (lt :: kids))
          = true ∧
        ∀ js : List Journal,
          journalHandlerProcess (Node.mk NType.elementNode "a".data attrs (lt :: kids)) js
            = (js ++ [{ ID := parseSubmissionID ds, Title := txt }], false) ∧
          (digitsVal ds < 2 ^ 63 → parseSubmissionID ds = (digitsVal ds : Int))) := by
  have hnode : (Node.mk NType.elementNode "a".data attrs (lt :: kids)).ntype
      = NType.elementNode ∧
      (Node.mk NType.elementNode "a".data attrs (lt :: kids)).data = "a".data :=
    ⟨rfl, rfl⟩
  constructor
  · intro hexcl
    rw [journalHandlerMatches, if_pos hnode]
    rw [show (Node.mk NType.elementNode "a".data attrs (lt :: kids)).attr = attrs from rfl,
      hhref]
    simp only [Option.isSome_some, if_pos]
    rw [show (Node.mk NType.elementNode "a".data attrs (lt :: kids)).children
      = lt :: kids from rfl]
    simp only [List.head?_cons]
    rw [if_pos hlt, htxt]
    rcases hexcl with h | h
    · simp [h]
    · simp [h]
  · intro hpre hrm
    constructor
    · rw [journalHandlerMatches, if_pos hnode]
      rw [show (Node.mk NType.elementNode "a".data attrs (lt :: kids)).attr = attrs from rfl,
        hhref]
      simp only [Option.isSome_some, if_pos]
      rw [show (Node.mk NType.elementNode "a".data attrs (lt :: kids)).children
        = lt :: kids from rfl]
      simp only [List.head?_cons]
      rw [if_pos hlt, htxt, hpre]
      simp [hrm]
    · intro js
      have hd := journalPathMatch_digits hhref
      constructor
      · rw [journalHandlerProcess]
        rw [show (Node.mk NType.elementNode "a".data attrs (lt :: kids)).attr = attrs from rfl,
          hhref]
        rw [show (Node.mk NType.elementNode "a".data attrs (lt :: kids)).children
          = lt :: kids from rfl]
        simp [htxt]
      · intro hval
        exact parseSubmissionID_of_digits hd.1 hd.2 hval

/-- **C7, witness.** The theorem applied to a concrete included anchor
(`<a href="/journal/77/">My title</a>`): it matches and records exactly
`Journal 77, "My title"`; the same structure with text `Read more...` is
excluded. -/
theorem journalHandler_spec_witness :
    (journalHandlerMatches (Node.mk NType.elementNode "a".data
        [⟨"href".data, "/journal/77/".data⟩]
        [Node.mk NType.textNode "My title".data [] []]) = true ∧
      journalHandlerProcess (Node.mk NType.elementNode "a".data
        [⟨"href".data, "/journal/77/".data⟩]
        [Node.mk NType.textNode "My title".data [] []]) []
        = ([{ ID := parseSubmissionID "77".data, Title := "My title".data }], false)) ∧
    journalHandlerMatches (Node.mk NType.elementNode "a".data
        [⟨"href".data, "/journal/77/".data⟩]
        [Node.mk NType.textNode "Read more...".data [] []]) = false := by
  refine ⟨⟨?_, ?_⟩, ?_⟩
  · exact ((journalHandler_spec [⟨"href".data, "/journal/77/".data⟩]
      (Node.mk NType.textNode "My title".data [] []) [] "77".data "My title".data
      (by decide) rfl rfl).2 (by decide) (by decide)).1
  · exact (((journalHandler_spec [⟨"href".data, "/journal/77/".data⟩]
      (Node.mk NType.textNode "My title".data [] []) [] "77".data "My title".data
      (by decide) rfl rfl).2 (by decide) (by decide)).2 []).1
  · exact (journalHandler_spec [⟨"href".data, "/journal/77/".data⟩]
      (Node.mk NType.textNode "Read more...".data [] []) [] "77".data
      "Read more...".data (by decide) rfl rfl).1 (Or.inr rfl)

/-! ## journalDateHandler (C10) -/

/-- `journalDateHandler.matches` from journal.go: a `span` element whose
class contains `popup_date`.  Note it does not inspect the children. -/
def journalDateHandlerMatches (n : Node) : Bool :=
  checkNodeTagNameAndClass n "span".data "popup_date".data

/-- The `n.FirstChild.Data` read performed by `journalDateHandler.process`,
made partial: `none` corresponds to the nil-pointer dereference that Go would
panic on when the matched span has no children. -/
def journalDateRead (n : Node) : Option GoStr :=
  (n.children.head?).map Node.data

/-- **C10, counterexample.** The match precondition does *not* guarantee a
first child: a childless `<span class="popup_date">` satisfies `matches`, yet
the `n.FirstChild.Data` read in `process` has nothing to dereference. -/
theorem journalDateHandler_claim_false :
    journalDateHandlerMatches (Node.mk NType.elementNode "span".data
        [⟨"class".data, "popup_date".data⟩] []) = true ∧
      journalDateRead (Node.mk NType.elementNode "span".data
        [⟨"class".data, "popup_date".data⟩] []) = none := by
  constructor
  · decide
  · rfl

/-- **C10, amended.** `matches` alone does not make the child dereference
safe; the dereference in `process` succeeds exactly on matched nodes that do
have at least one child. -/
theorem journalDateHandler_safe_of_child (n : Node)
    (hm : journalDateHandlerMatches n = true) (hc : n.children ≠ []) :
    (journalDateRead n).isSome = true := by
  cases n with
  | mk t d a cs =>
    cases cs with
    | nil => exact absurd rfl hc
    | cons c rest => rfl

/-- **C10, witness.** The amended safety applied to a dated span with a text
child. -/
theorem journalDateHandler_safe_witness :
    (journalDateRead (Node.mk NType.elementNode "span".data
        [⟨"class".data, "popup_date".data⟩]
        [Node.mk NType.textNode "Jan 1st, 2019".data [] []])).isSome = true :=
  journalDateHandler_safe_of_child _ (by decide) (fun h => List.cons_ne_nil _ _ h)

/-! ## Submissions and the section + item handler pair (C2) -/

/-- `Submission` from submission.go (the `*Client` back-reference is dropped;
`Rating` is the string-typed rating; `previewImage` is the lazy byte cache). -/
structure Submission where
  ID : Int
  PreviewURL : GoStr
  Rating : GoStr := []
  Title : GoStr := []
  User : GoStr := []
  previewImage : Option Bytes := none
deriving DecidableEq, Repr

/-- `submissionImageHandler` from user.go: matches any `img` element and
stores `"https:" + src`; never descends. -/
def submissionImageHandler : Handler GoStr :=
  { matchesFn := fun n => n.ntype = NType.elementNode && n.data = "img".data
    processFn := fun n _ => ("https:".data ++ findAttribute n.attr "src".data, false) }

/-- The record built by `submissionHandler.process` for one `figure` node:
submission id parsed from the `id` attribute, preview URL collected by a
nested processor run with `submissionImageHandler` over the figure's subtree
(the url accumulator starts empty, like the zero-valued `si.url`). -/
def mkFigureSubmission (n : Node) : Submission :=
  { ID := parseSubmissionID (findAttribute n.attr "id".data)
    PreviewURL := processNode [submissionImageHandler] n [] }

/-- `submissionHandler` from user.go: matches any `figure` element, appends
one `Submission` built from it, and never descends (so nested figures are
not themselves enumerated). -/
def submissionHandler : Handler (List Submission) :=
  { matchesFn := fun n => n.ntype = NType.elementNode && n.data = "figure".data
    processFn := fun n subs => (subs ++ [mkFigureSubmission n], false) }

/-- `submissionSectionHandler` from user.go: matches the
`section#gallery-latest-submissions` container, replaces its accumulator with
the result of a nested processor run (with `submissionHandler`) over the
container's subtree, and never lets the outer walk descend. -/
def submissionSectionHandler : Handler (List Submission) :=
  { matchesFn := fun n =>
      checkNodeTagNameAndID n "section".data "gallery-latest-submissions".data
    processFn := fun n _ => (processNode [submissionHandler] n [], false) }

mutual

/-- Document order (pre-order) of a subtree — the order in which the
processor visits nodes. -/
def preorder : Node → List Node
  | Node.mk t d a cs => Node.mk t d a cs :: preorderList cs

/-- Document order of a forest of siblings. -/
def preorderList : List Node → List Node
  | [] => []
  | c :: cs => preorder c ++ preorderList cs

end

/-- The section container nodes of a tree, in document order. -/
def sectionNodes (t : Node) : List Node :=
  (preorder t).filter submissionSectionHandler.matchesFn

/-- The `figure` item nodes of a tree, in document order. -/
def figureNodes (t : Node) : List Node :=
  (preorder t).filter submissionHandler.matchesFn

/-- Well-formedness for the item pass: no `figure` node contains another
`figure` in its subtree (the item handler stops descending at a figure, so a
nested figure would be skipped). -/
def noNestedFigures (t : Node) : Bool :=
  (preorder t).all fun n =>
    !(submissionHandler.matchesFn n) ||
      ((preorderList n.children).filter submissionHandler.matchesFn).isEmpty

theorem mem_preorder_self (u : Node) : u ∈ preorder u := by
  cases u with
  | mk t d a cs => rw [preorder]; exact List.mem_cons_self _ _

theorem mem_preorder_of_children {x : Node} {t : NType} {d : GoStr}
    {a : List NAttr} {cs : List Node} (h : x ∈ preorderList cs) :
    x ∈ preorder (Node.mk t d a cs) := by
  rw [preorder]
  exact List.mem_cons_of_mem _ h

theorem mem_preorderList_of_mem {x c : Node} {cs : List Node}
    (hc : c ∈ cs) (hx : x ∈ preorder c) : x ∈ preorderList cs := by
  induction cs with
  | nil => cases hc
  | cons y ys ih =>
    rw [preorderList, List.mem_append]
    rcases List.mem_cons.mp hc with h | h
    · subst h; exact Or.inl hx
    · exact Or.inr (ih h)

/-- Hypothesis shape used by the item-run lemmas: within the subtree, every
figure has a figure-free interior. -/
def ItemSubtreeOK (u : Node) : Prop :=
  ∀ n ∈ preorder u, submissionHandler.matchesFn n = true →
    (preorderList n.children).filter submissionHandler.matchesFn = []

def ItemForestOK (cs : List Node) : Prop :=
  ∀ n ∈ preorderList cs, submissionHandler.matchesFn n = true →
    (preorderList n.children).filter submissionHandler.matchesFn = []

theorem runHandlers_cons {σ : Type} (h : Handler σ) (hs : List (Handler σ))
    (n : Node) (s : σ) :
    runHandlers (h :: hs) n s
      = if h.matchesFn n = true then h.processFn n s else runHandlers hs n s := rfl

mutual

theorem itemRun_eq : ∀ (u : Node) (acc : List Submission), ItemSubtreeOK u →
    processNode [submissionHandler] u acc
      = acc ++ (figureNodes u).map mkFigureSubmission
  | Node.mk t d a cs, acc, h => by
    rw [processNode, runHandlers_cons, figureNodes, preorder, List.filter_cons]
    by_cases hm : submissionHandler.matchesFn (Node.mk t d a cs) = true
    · rw [if_pos hm]
      show acc ++ [mkFigureSubmission (Node.mk t d a cs)] = _
      have hnest : (preorderList cs).filter submissionHandler.matchesFn = [] := by
        have := h (Node.mk t d a cs) (mem_preorder_self _) hm
        simpa [Node.children] using this
      rw [if_pos hm, hnest]
      simp
    · rw [if_neg hm]
      show processChildren [submissionHandler] cs acc = _
      rw [if_neg hm]
      exact itemRunList_eq cs acc fun n hn hfig =>
        h n (mem_preorder_of_children hn) hfig

theorem itemRunList_eq : ∀ (cs : List Node) (acc : List Submission), ItemForestOK cs →
    processChildren [submissionHandler] cs acc
      = acc ++ ((preorderList cs).filter submissionHandler.matchesFn).map
          mkFigureSubmission
  | [], acc, _ => by
    rw [processChildren, preorderList]
    simp
  | c :: cs, acc, h => by
    rw [processChildren, preorderList, List.filter_append, List.map_append,
      ← List.append_assoc]
    have h1 : processNode [submissionHandler] c acc
        = acc ++ ((preorder c).filter submissionHandler.matchesFn).map
            mkFigureSubmission :=
      itemRun_eq c acc fun n hn hfig =>
        h n (mem_preorderList_of_mem (List.mem_cons_self c cs) hn) hfig
    rw [h1]
    exact itemRunList_eq cs _ fun n hn hfig =>
      h n (by rw [preorderList, List.mem_append]; exact Or.inr hn) hfig

end

theorem filter_preorder_nil_forall {p : Node → Bool} {u : Node}
    (h : (preorder u).filter p = []) : ∀ x ∈ preorder u, p x = false := by
  intro x hx
  have := List.filter_eq_nil_iff.mp h x hx
  exact Bool.not_eq_true _ ▸ this

mutual

theorem sectionRun_nil : ∀ (u : Node) (acc : List Submission),
    (preorder u).filter submissionSectionHandler.matchesFn = [] →
    processNode [submissionSectionHandler] u acc = acc
  | Node.mk t d a cs, acc, h => by
    have hm : submissionSectionHandler.matchesFn (Node.mk t d a cs) = false :=
      filter_preorder_nil_forall h _ (mem_preorder_self _)
    rw [processNode, runHandlers_cons, if_neg (by rw [hm]; exact Bool.false_ne_true)]
    show processChildren [submissionSectionHandler] cs acc = acc
    refine sectionRunList_nil cs acc ?_
    rw [List.filter_eq_nil_iff]
    intro x hx
    have hxmem : x ∈ preorder (Node.mk t d a cs) := mem_preorder_of_children hx
    have hxf := filter_preorder_nil_forall h x hxmem
    simp [hxf]

theorem sectionRunList_nil : ∀ (cs : List Node) (acc : List Submission),
    (preorderList cs).filter submissionSectionHandler.matchesFn = [] →
    processChildren [submissionSectionHandler] cs acc = acc
  | [], acc, _ => rfl
  | c :: cs, acc, h => by
    rw [preorderList, List.filter_append, List.append_eq_nil] at h
    rw [processChildren, sectionRun_nil c acc h.1]
    exact sectionRunList_nil cs acc h.2

end

mutual

theorem sectionRun_single : ∀ (u w : Node) (acc : List Submission),
    (preorder u).filter submissionSectionHandler.matchesFn = [w] →
    ItemSubtreeOK w →
    processNode [submissionSectionHandler] u acc
      = (figureNodes w).map mkFigureSubmission
  | Node.mk t d a cs, w, acc, hs, hw => by
    rw [preorder, List.filter_cons] at hs
    rw [processNode, runHandlers_cons]
    by_cases hm : submissionSectionHandler.matchesFn (Node.mk t d a cs) = true
    · rw [if_pos hm]
      rw [if_pos hm] at hs
      injection hs with hweq htail
      show processNode [submissionHandler] (Node.mk t d a cs) [] = _
      rw [hweq]
      simpa using itemRun_eq w [] hw
    · rw [if_neg hm]
      rw [if_neg hm] at hs
      show processChildren [submissionSectionHandler] cs acc = _
      exact sectionRunList_single cs w acc hs hw

theorem sectionRunList_single : ∀ (cs : List Node) (w : Node) (acc : List Submission),
    (preorderList cs).filter submissionSectionHandler.matchesFn = [w] →
    ItemSubtreeOK w →
    processChildren [submissionSectionHandler] cs acc
      = (figureNodes w).map mkFigureSubmission
  | [], w, acc, hs, _ => by
    rw [preorderList] at hs
    cases hs
  | c :: cs, w, acc, hs, hw => by
    rw [preorderList, List.filter_append] at hs
    rw [processChildren]
    cases hfc : (preorder c).filter submissionSectionHandler.matchesFn with
    | nil =>
      rw [hfc, List.nil_append] at hs
      rw [sectionRun_nil c acc hfc]
      exact sectionRunList_single cs w acc hs hw
    | cons x xs =>
      rw [hfc, List.cons_append] at hs
      injection hs with hx htail
      rw [List.append_eq_nil] at htail
      subst hx
      rw [sectionRun_single c x acc (by rw [hfc, htail.1]) hw]
      exact sectionRunList_nil cs _ htail.2

end

/-- **C2.** For every tree containing exactly one section container matching
the configured tag and id (`section#gallery-latest-submissions`), in which no
`figure` contains another `figure`, running the outer processor with the
section handler (which delegates to a nested `submissionHandler` processor
over the matched container) extracts exactly one `Submission` per figure node
of the container's subtree, appended in document order — in particular,
exactly N records for N figure nodes. -/
theorem sectionItemPair_spec (t w : Node)
    (hsec : sectionNodes t = [w]) (hnest : noNestedFigures w = true) :
    processNode [submissionSectionHandler] t []
        = (figureNodes w).map mkFigureSubmission ∧
      (processNode [submissionSectionHandler] t []).length
        = (figureNodes w).length := by
  have hw : ItemSubtreeOK w := by
    intro n hn hfig
    rw [noNestedFigures, List.all_eq_true] at hnest
    have := hnest n hn
    rw [hfig] at this
    simp only [Bool.not_true, Bool.false_or] at this
    exact List.isEmpty_iff.mp this
  have hmain := sectionRun_single t w [] (by rw [← sectionNodes]; exact hsec) hw
  exact ⟨hmain, by rw [hmain, List.length_map]⟩

/-- A concrete matching section holding two figures (`sid-1` with an image,
`sid-2`), used by the C2 witness. -/
def sampleSection : Node :=
  Node.mk NType.elementNode "section".data
    [⟨"id".data, "gallery-latest-submissions".data⟩]
    [Node.mk NType.elementNode "figure".data [⟨"id".data, "sid-1".data⟩]
      [Node.mk NType.elementNode "img".data [⟨"src".data, "//x/1.jpg".data⟩] []],
     Node.mk NType.elementNode "figure".data [⟨"id".data, "sid-2".data⟩] []]

/-- A concrete page: a root `div` holding `sampleSection`. -/
def samplePage : Node :=
  Node.mk NType.elementNode "div".data [] [sampleSection]

/-- **C2, witness.** On `samplePage` the pair extracts exactly the two figure
records of `sampleSection`, in document order. -/
theorem sectionItemPair_spec_witness :
    processNode [submissionSectionHandler] samplePage []
      = List.map mkFigureSubmission (figureNodes sampleSection) :=
  (sectionItemPair_spec samplePage sampleSection (by rfl) (by decide)).1

/-! ## Script-data handler and GetRecent assembly (C6) -/

/-- `faSubmission` from user.go: the JSON-decoded per-submission record
(`icon_rating` / `title` / `username`). -/
structure FaSubmission where
  Rating : GoStr := []
  Title : GoStr := []
  User : GoStr := []
deriving DecidableEq, Repr

/-- The greedy tail of `submissionDataRegexp` at a fixed start position:
the longest newline-free prefix of `r` that is followed by `}});`, returned
as capture group 1 (content plus the trailing `}}`).  `none` when no length
works, in which case the engine moves to the next start position. -/
def sdCaptureAux (r : GoStr) : Nat → Option GoStr
  | 0 => if goStartsWith r "\x7d\x7d);".data then some "\x7d\x7d".data else none
  | j + 1 =>
    if goStartsWith (r.drop (j + 1)) "\x7d\x7d);".data then
      some (r.take (j + 1) ++ "\x7d\x7d".data)
    else sdCaptureAux r j

/-- Greedy capture of `(.*}})` followed by `);` in `r` (a `.` does not match
a newline). -/
def sdCapture (r : GoStr) : Option GoStr :=
  sdCaptureAux r (r.takeWhile (fun c => !(c = '\n'))).length

/-- `submissionDataRegexp` = `var submission_data = (.*}});`, leftmost-first:
scan for the first position where the literal head matches and the greedy
tail completes; the result is capture group 1. -/
def submissionDataFind : GoStr → Option GoStr
  | [] => none
  | c :: rest =>
    if goStartsWith (c :: rest) "var submission_data = ".data then
      match sdCapture ((c :: rest).drop "var submission_data = ".data.length) with
      | some cap => some cap
      | none => submissionDataFind rest
    else submissionDataFind rest

/-- The capture group that `scriptHandler.process` feeds to `json.Unmarshal`
(first child's text run through the regex; defaults are unreachable when
`matches` holds). -/
def scriptRaw (n : Node) : GoStr :=
  match n.children.head? with
  | some fc => (submissionDataFind fc.data).getD []
  | none => []

/-- Combined accumulator state of the three handlers used by
`User.GetRecent`: `submissionSectionHandler.subs`, `journalHandler.js`,
`scriptHandler.data`. -/
structure RecentState where
  subs : List Submission := []
  js : List Journal := []
  sdata : List (Int × FaSubmission) := []
deriving DecidableEq, Repr

/-- `scriptHandler` from user.go, with `json.Unmarshal` (an external
library) abstracted as a decoder oracle `jsonParse`: on a match, the capture
is decoded; a decode failure is logged and the freshly-made empty mapping is
stored (`process` still returns, and returns false). -/
def scriptHandlerG (jsonParse : GoStr → Option (List (Int × FaSubmission))) :
    Handler RecentState :=
  { matchesFn := fun n =>
      n.ntype = NType.elementNode && n.data = "script".data &&
        (match n.children.head? with
          | some fc => (submissionDataFind fc.data).isSome
          | none => false)
    processFn := fun n st => ({ st with sdata := (jsonParse (scriptRaw n)).getD [] }, false) }

/-- `journalHandler` as a handler over the combined state. -/
def journalHandlerG : Handler RecentState :=
  { matchesFn := journalHandlerMatches
    processFn := fun n st =>
      ({ st with js := (journalHandlerProcess n st.js).1 },
        (journalHandlerProcess n st.js).2) }

/-- `submissionSectionHandler` as a handler over the combined state (the
accumulator is replaced, not appended to). -/
def submissionSectionHandlerG : Handler RecentState :=
  { matchesFn := submissionSectionHandler.matchesFn
    processFn := fun n st => ({ st with subs := processNode [submissionHandler] n [] }, false) }

/-- Go map lookup `data[id]`: first entry with the key, zero value when
absent. -/
def mapLookup (data : List (Int × FaSubmission)) (id : Int) : FaSubmission :=
  match data with
  | [] => {}
  | (k, v) :: rest => if k = id then v else mapLookup rest id

/-- `User.attachSubmissionData` from user.go: join the DOM-derived records
against the script-derived mapping by ID (rating token stripped of its `r-`
head). -/
def attachSubmissionData (subs : List Submission)
    (data : List (Int × FaSubmission)) : List Submission :=
  subs.map fun sub =>
    { sub with
      Rating := replaceFirst (mapLookup data sub.ID).Rating "r-".data []
      Title := (mapLookup data sub.ID).Title
      User := (mapLookup data sub.ID).User }

/-- `User.attachJournalData` from user.go: fill the owning username. -/
def attachJournalData (user : GoStr) (js : List Journal) : List Journal :=
  js.map fun j => { j with User := user }

/-- The processor run inside `User.GetRecent` (handlers in source order). -/
def getRecentRun (jsonParse : GoStr → Option (List (Int × FaSubmission)))
    (root : Node) : RecentState :=
  processNode [submissionSectionHandlerG, journalHandlerG, scriptHandlerG jsonParse]
    root {}

/-- `User.GetRecent` after a successful fetch: run the processor, then merge
(the function is total — extraction failures never abort the operation). -/
def getRecent (jsonParse : GoStr → Option (List (Int × FaSubmission)))
    (user : GoStr) (root : Node) : List Submission × List Journal :=
  (attachSubmissionData (getRecentRun jsonParse root).subs
      (getRecentRun jsonParse root).sdata,
    attachJournalData user (getRecentRun jsonParse root).js)

mutual

theorem processNode_preserve {σ : Type} (P : σ → Prop) (hs : List (Handler σ)) :
    ∀ u : Node, (∀ n ∈ preorder u, ∀ h ∈ hs, h.matchesFn n = true →
        ∀ s : σ, P s → P (h.processFn n s).1) →
      ∀ s : σ, P s → P (processNode hs u s)
  | Node.mk t d a cs, hpres, s, hP => by
    rw [processNode, runHandlers_eq_find]
    cases hfind : hs.find? (fun h => h.matchesFn (Node.mk t d a cs)) with
    | none =>
      show P (processChildren hs cs s)
      exact processChildren_preserve P hs cs
        (fun n hn => hpres n (mem_preorder_of_children hn)) s hP
    | some h =>
      have hmem : h ∈ hs := List.mem_of_find?_eq_some hfind
      have hmatch : h.matchesFn (Node.mk t d a cs) = true := by
        have := List.find?_some hfind
        simpa using this
      have hP' : P (h.processFn (Node.mk t d a cs) s).1 :=
        hpres _ (mem_preorder_self _) h hmem hmatch s hP
      cases hp : h.processFn (Node.mk t d a cs) s with
      | mk s' b =>
        simp only [hp]
        rw [hp] at hP'
        cases b with
        | true =>
          exact processChildren_preserve P hs cs
            (fun n hn => hpres n (mem_preorder_of_children hn)) s' hP'
        | false => exact hP'

theorem processChildren_preserve {σ : Type} (P : σ → Prop) (hs : List (Handler σ)) :
    ∀ cs : List Node, (∀ n ∈ preorderList cs, ∀ h ∈ hs, h.matchesFn n = true →
        ∀ s : σ, P s → P (h.processFn n s).1) →
      ∀ s : σ, P s → P (processChildren hs cs s)
  | [], _, s, hP => hP
  | c :: cs, hpres, s, hP => by
    rw [processChildren]
    refine processChildren_preserve P hs cs
      (fun n hn => hpres n ?_) _
      (processNode_preserve P hs c (fun n hn => hpres n ?_) s hP)
    · rw [preorderList, List.mem_append]; exact Or.inr hn
    · exact mem_preorderList_of_mem (List.mem_cons_self c cs) hn

end

/-- **C6.** If every script node the script-data handler matches carries a
capture group that the JSON decoder rejects, then the handler stores the
empty mapping (the run ends with `sdata = []`), `GetRecent` still returns
(it is a total function of the fetched tree), and the merge step leaves the
rating, title, and username of every DOM-derived submission blank. -/
theorem scriptFailure_degrades
    (jsonParse : GoStr → Option (List (Int × FaSubmission)))
    (user : GoStr) (root : Node)
    (h : ∀ n ∈ preorder root, (scriptHandlerG jsonParse).matchesFn n = true →
      jsonParse (scriptRaw n) = none) :
    (getRecentRun jsonParse root).sdata = [] ∧
      ∀ sub ∈ (getRecent jsonParse user root).1,
        sub.Rating = [] ∧ sub.Title = [] ∧ sub.User = [] := by
  have hsdata : (getRecentRun jsonParse root).sdata = [] := by
    refine processNode_preserve (fun st => st.sdata = [])
      [submissionSectionHandlerG, journalHandlerG, scriptHandlerG jsonParse]
      root ?_ {} rfl
    intro n hn hd hmem hmatch s hs
    rcases List.mem_cons.mp hmem with h1 | h1
    · subst h1; exact hs
    · rcases List.mem_cons.mp h1 with h2 | h2
      · subst h2; exact hs
      · rcases List.mem_cons.mp h2 with h3 | h3
        · subst h3
          show (jsonParse (scriptRaw n)).getD [] = []
          rw [h n hn hmatch]
          rfl
        · cases h3
  refine ⟨hsdata, ?_⟩
  intro sub hsub
  rw [getRecent] at hsub
  simp only at hsub
  rw [hsdata] at hsub
  rw [attachSubmissionData] at hsub
  rcases List.mem_map.mp hsub with ⟨x, _, hx⟩
  rw [← hx]
  exact ⟨rfl, rfl, rfl⟩

/-- A script node whose embedded submission data is not valid JSON, used by
the C6 witness. -/
def sampleBadScript : Node :=
  Node.mk NType.elementNode "script".data []
    [Node.mk NType.textNode "var submission_data = \x7bbad\x7d\x7d);".data [] []]

/-- **C6, witness.** On a page holding the sample section and the malformed
script, with a decoder that rejects everything: the run stores the empty
mapping and both extracted submissions come out with blank rating, title,
and username. -/
theorem scriptFailure_degrades_witness :
    (getRecentRun (fun _ => none)
        (Node.mk NType.elementNode "div".data [] [sampleSection, sampleBadScript])).sdata
      = [] ∧
    ∀ sub ∈ (getRecent (fun _ => none) "someone".data
        (Node.mk NType.elementNode "div".data [] [sampleSection, sampleBadScript])).1,
      sub.Rating = [] ∧ sub.Title = [] ∧ sub.User = [] :=
  scriptFailure_degrades (fun _ => none) "someone".data
    (Node.mk NType.elementNode "div".data [] [sampleSection, sampleBadScript])
    (fun _ _ _ => rfl)

/-! ## Lazy preview/download caches (C8)

`Submission.PreviewImage` and `SubmissionDetails.Download` from
submission.go.  `Client.getRaw` is an oracle `fetch : GoStr → Option Bytes`
(`none` = transport error).  Each call returns the updated record, the value
returned to the caller, and the list of URLs actually fetched, in order. -/

/-- `SubmissionDetails` from submission.go (`*Client` dropped; `download` is
the lazy blob cache). -/
structure SubmissionDetails where
  DownloadURL : GoStr
  Description : GoStr := []
  Stats : GoStr := []
  download : Option Bytes := none
deriving DecidableEq, Repr

/-- The letter test of `previewSizeRegexp`'s final group (`[a-zA-Z]+`). -/
def isAlphaCh (c : Char) : Bool :=
  ('a' ≤ c && c ≤ 'z') || ('A' ≤ c && c ≤ 'Z')

/-- Literal-with-wildcard head matching: a `.` in the pattern matches any
input character (the regexp's dots in `t.furaffinity.net` are unescaped).
Returns the remaining input after the head. -/
def wildMatch : GoStr → GoStr → Option GoStr
  | [], s => some s
  | _ :: _, [] => none
  | p :: ps, c :: cs => if p = '.' ∨ p = c then wildMatch ps cs else none

/-- `previewSizeRegexp` `^https://t.furaffinity.net/(\d+)@(\d+)-(\d+)\.([a-zA-Z]+)$`:
the four capture groups, or `none` (Go: `len(parts) == 5` fails). -/
def previewURLParts (s : GoStr) : Option (GoStr × GoStr × GoStr × GoStr) :=
  match wildMatch "https://t.furaffinity.net/".data s with
  | none => none
  | some r1 =>
    match r1.takeWhile isDigitCh with
    | [] => none
    | _ :: _ =>
      match r1.drop (r1.takeWhile isDigitCh).length with
      | '@' :: r2 =>
        match r2.takeWhile isDigitCh with
        | [] => none
        | _ :: _ =>
          match r2.drop (r2.takeWhile isDigitCh).length with
          | '-' :: r3 =>
            match r3.takeWhile isDigitCh with
            | [] => none
            | _ :: _ =>
              match r3.drop (r3.takeWhile isDigitCh).length with
              | '.' :: r4 =>
                match r4.takeWhile isAlphaCh with
                | [] => none
                | _ :: _ =>
                  if r4.drop (r4.takeWhile isAlphaCh).length = [] then
                    some (r1.takeWhile isDigitCh, r2.takeWhile isDigitCh,
                      r3.takeWhile isDigitCh, r4.takeWhile isAlphaCh)
                  else none
              | _ => none
          | _ => none
      | _ => none

/-- `previewURLFormat` `https://t.furaffinity.net/%s@800-%s.%s` applied to
groups 1, 3, 4. -/
def largePreviewURL (p1 p3 p4 : GoStr) : GoStr :=
  "https://t.furaffinity.net/".data ++ p1 ++ "@800-".data ++ p3 ++ ".".data ++ p4

/-- The shared tail of `Submission.PreviewImage`: fetch the stored
`PreviewURL`; on success cache and return the bytes, on failure return the
error with the cache untouched. -/
def previewFallback (fetch : GoStr → Option Bytes) (s : Submission)
    (fetched : List GoStr) : Submission × Option Bytes × List GoStr :=
  match fetch s.PreviewURL with
  | some bb => ({ s with previewImage := some bb }, some bb, fetched ++ [s.PreviewURL])
  | none => (s, none, fetched ++ [s.PreviewURL])

/-- `Submission.PreviewImage` from submission.go: return the cache when
populated; otherwise try the `@800` large-size preview when the URL parses
and is not already at that size (a failure there only logs a warning), then
fall back to the stored URL. -/
def previewImageCall (fetch : GoStr → Option Bytes) (s : Submission) :
    Submission × Option Bytes × List GoStr :=
  match s.previewImage with
  | some bb => (s, some bb, [])
  | none =>
    match previewURLParts s.PreviewURL with
    | some (p1, p2, p3, p4) =>
      if p2 ≠ "800".data then
        match fetch (largePreviewURL p1 p3 p4) with
        | some bb =>
          ({ s with previewImage := some bb }, some bb, [largePreviewURL p1 p3 p4])
        | none => previewFallback fetch s [largePreviewURL p1 p3 p4]
      else previewFallback fetch s []
    | none => previewFallback fetch s []

/-- `SubmissionDetails.Download` from submission.go: return the cache when
populated; otherwise fetch `DownloadURL`, caching only on success. -/
def downloadCall (fetch : GoStr → Option Bytes) (sd : SubmissionDetails) :
    SubmissionDetails × Option Bytes × List GoStr :=
  match sd.download with
  | some bb => (sd, some bb, [])
  | none =>
    match fetch sd.DownloadURL with
    | some bb => ({ sd with download := some bb }, some bb, [sd.DownloadURL])
    | none => (sd, none, [sd.DownloadURL])

theorem previewFallback_populates {fetch : GoStr → Option Bytes} {s s' : Submission}
    {r : Bytes} {pre us : List GoStr}
    (h : previewFallback fetch s pre = (s', some r, us)) :
    s'.previewImage = some r := by
  rw [previewFallback] at h
  split at h
  · injection h with h1 h2
    injection h2 with h2 h3
    injection h2 with h2
    rw [← h1, ← h2]
  · injection h with h1 h2
    injection h2 with h2 h3
    cases h2

theorem previewImageCall_populates {fetch : GoStr → Option Bytes} {s s' : Submission}
    {r : Bytes} {us : List GoStr}
    (h : previewImageCall fetch s = (s', some r, us)) :
    s'.previewImage = some r := by
  rw [previewImageCall] at h
  split at h
  · rename_i bb hcache
    injection h with h1 h2
    injection h2 with h2 h3
    injection h2 with h2
    rw [← h1, hcache, h2]
  · split at h
    · split at h
      · split at h
        · injection h with h1 h2
          injection h2 with h2 h3
          injection h2 with h2
          rw [← h1, ← h2]
        · exact previewFallback_populates h
      · exact previewFallback_populates h
    · exact previewFallback_populates h

theorem downloadCall_populates {fetch : GoStr → Option Bytes}
    {sd sd' : SubmissionDetails} {r : Bytes} {us : List GoStr}
    (h : downloadCall fetch sd = (sd', some r, us)) :
    sd'.download = some r := by
  rw [downloadCall] at h
  split at h
  · rename_i bb hcache
    injection h with h1 h2
    injection h2 with h2 h3
    injection h2 with h2
    rw [← h1, hcache, h2]
  · split at h
    · injection h with h1 h2
      injection h2 with h2 h3
      injection h2 with h2
      rw [← h1, ← h2]
    · injection h with h1 h2
      injection h2 with h2 h3
      cases h2

theorem previewImageCall_cached {fetch : GoStr → Option Bytes} {s : Submission}
    {bb : Bytes} (h : s.previewImage = some bb) :
    previewImageCall fetch s = (s, some bb, []) := by
  rw [previewImageCall, h]

theorem downloadCall_cached {fetch : GoStr → Option Bytes} {sd : SubmissionDetails}
    {bb : Bytes} (h : sd.download = some bb) :
    downloadCall fetch sd = (sd, some bb, []) := by
  rw [downloadCall, h]

/-- **C8.** The lazy byte caches are fetch-at-most-once per record instance:

* a call on a record whose cache is populated returns the cached bytes,
  leaves the record unchanged, and performs no fetch;
* a successful call stores exactly the returned bytes in the cache;
* hence any call after a successful one — even against a different network
  oracle — returns the first call's bytes, changes nothing, and performs no
  fetch.

The same holds for `Submission.PreviewImage` and
`SubmissionDetails.Download`. -/
theorem lazyCache_spec :
    (∀ (fetch : GoStr → Option Bytes) (s : Submission) (bb : Bytes),
        s.previewImage = some bb → previewImageCall fetch s = (s, some bb, [])) ∧
    (∀ (fetch : GoStr → Option Bytes) (s s' : Submission) (r : Bytes) (us : List GoStr),
        previewImageCall fetch s = (s', some r, us) → s'.previewImage = some r) ∧
    (∀ (fetch fetch' : GoStr → Option Bytes) (s s' : Submission) (r : Bytes)
        (us : List GoStr),
        previewImageCall fetch s = (s', some r, us) →
          previewImageCall fetch' s' = (s', some r, [])) ∧
    (∀ (fetch : GoStr → Option Bytes) (sd : SubmissionDetails) (bb : Bytes),
        sd.download = some bb → downloadCall fetch sd = (sd, some bb, [])) ∧
    (∀ (fetch : GoStr → Option Bytes) (sd sd' : SubmissionDetails) (r : Bytes)
        (us : List GoStr),
        downloadCall fetch sd = (sd', some r, us) → sd'.download = some r) ∧
    (∀ (fetch fetch' : GoStr → Option Bytes) (sd sd' : SubmissionDetails) (r : Bytes)
        (us : List GoStr),
        downloadCall fetch sd = (sd', some r, us) →
          downloadCall fetch' sd' = (sd', some r, [])) := by
  refine ⟨fun _ _ _ h => previewImageCall_cached h,
    fun _ _ _ _ _ h => previewImageCall_populates h,
    fun _ _ _ _ _ _ h => previewImageCall_cached (previewImageCall_populates h),
    fun _ _ _ h => downloadCall_cached h,
    fun _ _ _ _ _ h => downloadCall_populates h,
    fun _ _ _ _ _ _ h => downloadCall_cached (downloadCall_populates h)⟩

/-- **C8, witness.** The cache behavior at concrete records: an already
populated preview (or download) cache is returned unchanged with no fetch,
and the record left by a successful first download call (discharged inside
the proof against a constant oracle) answers the next call — here with a
failing oracle — from the cache without fetching. -/
theorem lazyCache_spec_witness :
    previewImageCall (fun _ => none)
        { ID := 1, PreviewURL := "u".data, previewImage := some [7] }
      = ({ ID := 1, PreviewURL := "u".data, previewImage := some [7] }, some [7], []) ∧
    downloadCall (fun _ => none)
        { DownloadURL := "d".data, download := some [9] }
      = ({ DownloadURL := "d".data, download := some [9] }, some [9], []) ∧
    downloadCall (fun _ => none) { DownloadURL := "d".data, download := some [3] }
      = ({ DownloadURL := "d".data, download := some [3] }, some [3], []) :=
  ⟨lazyCache_spec.1 (fun _ => none) _ [7] rfl,
   lazyCache_spec.2.2.2.1 (fun _ => none) _ [9] rfl,
   lazyCache_spec.2.2.2.2.2 (fun _ => some [3]) (fun _ => none)
     { DownloadURL := "d".data }
     { DownloadURL := "d".data, download := some [3] } [3] ["d".data] rfl⟩

end Faapi
